import Mathlib

/-!
# SMI detector

A shallow embedding of `smi_detector.c`: the sampling window (`smi_get_sample`),
the periodic driver (`smi_kthread_fn`), the blocking read of `sample_us`
(`smi_debug_sample_fread`) and the initialisation (`smi_detector_init`).

Conventions.
* `u64` values are natural numbers; every `u64` operation that can leave the
  range is reduced modulo `2^64`.  `s64` values (and `ktime_t`, a signed 64-bit
  count of nanoseconds) are of type `Int`; `ktime_sub` wraps to the signed range.
  Comparisons between an `s64` and a `u64` convert the `s64` operand to `u64`,
  as C does.
* The clock is an input: a window is given the readings that the successive
  calls of `ktime_get()` return.  The list of readings is finite, so a window
  whose loop is still going when the readings are used up is reported as
  `still_running`.
* The local `spike` of `smi_get_sample` has no initial value in C; it is an
  `Option`, and a read of the unassigned local is a result of its own
  (`uninit_read`), which is then proved not to occur.
* The kernel helpers the file calls are modelled by their kernel definitions,
  those of the kernels of the file's date: `ktime_to_us(kt)` goes through
  `ktime_to_timeval`, whose normalised `timeval` rounds a negative time down, so
  that the result is the floor of `kt / 1000`; `USEC_PER_MSEC` is `1000L` with a
  64-bit `long`, so that `USEC_PER_MSEC*smi_sample_ms` (a `u32`) cannot
  overflow; `stop_machine` returns what the function it runs returned;
  `msleep_interruptible` returns the milliseconds left, non-zero when the sleep
  was interrupted; `wait_event_interruptible` returns `0` when the condition
  holds and `-ERESTARTSYS` when a signal interrupts the sleep; `sprintf` with
  `%08llx` pads to a width of at least 8 with zeros.
-/

namespace SmiDetector

/-! ## Machine integers and kernel time helpers -/

/-- Conversion of a signed value to `u64` (the C conversion to an unsigned 64-bit type). -/
def to_u64 (x : Int) : Nat := (x % 18446744073709551616).toNat

/-- Wrap an integer to the `s64` range (two's complement). -/
def to_s64 (x : Int) : Int :=
  (x + 9223372036854775808) % 18446744073709551616 - 9223372036854775808

/-- Kernel `ktime_sub(lhs, rhs)`: `lhs - rhs` in `s64`. -/
def ktime_sub (lhs rhs : Int) : Int := to_s64 (lhs - rhs)

/-- Constant `NSEC_PER_SEC`. -/
def NSEC_PER_SEC : Int := 1000000000

/-- Constant `USEC_PER_SEC`. -/
def USEC_PER_SEC : Int := 1000000

/-- Kernel `ns_to_timeval(nsec)`, the pair `(tv_sec, tv_usec)`: `ns_to_timespec`
divides by `NSEC_PER_SEC` and normalises a negative remainder, so that
`tv_sec` is the floor of the quotient and `0 ≤ tv_nsec < NSEC_PER_SEC`; then
`tv_usec = tv_nsec / 1000`.  (The `/` and `%` of `Int` round in this way for a
positive divisor.) -/
def ns_to_timeval (nsec : Int) : Int × Int :=
  (nsec / NSEC_PER_SEC, (nsec % NSEC_PER_SEC) / 1000)

/-- Kernel `ktime_to_us(kt)`, as the kernels of the file's date define it:
`tv = ktime_to_timeval(kt)`, then `(s64) tv.tv_sec * USEC_PER_SEC + tv.tv_usec`.
For a negative `kt` the result is rounded down: `-500` ns are `-1` µs. -/
def ktime_to_us (kt : Int) : Int :=
  (ns_to_timeval kt).1 * USEC_PER_SEC + (ns_to_timeval kt).2

/-- Constant `USEC_PER_MSEC` (`1000L`). -/
def USEC_PER_MSEC : Int := 1000

/-- Constant `DEFAULT_MS_PER_SAMPLE`. -/
def DEFAULT_MS_PER_SAMPLE : Nat := 1

/-- Constant `DEFAULT_MS_SEP_SAMPLE`. -/
def DEFAULT_MS_SEP_SAMPLE : Nat := 5000

/-- Constant `DEFAULT_SMI_THRESHOLD`. -/
def DEFAULT_SMI_THRESHOLD : Nat := 1

/-- A reading of `ktime_get()` that is a valid monotonic time: non-negative and
inside the signed 64-bit range. -/
def valid_ktime (t : Int) : Prop := 0 ≤ t ∧ t < 9223372036854775808

instance (t : Int) : Decidable (valid_ktime t) := by
  unfold valid_ktime; infer_instance

/-! ## Data model -/

/-- The statistics `struct smdata_struct` (the wait queue `wq` carries no data). -/
structure smdata_struct where
  last_sample : Nat
  max_sample : Nat
  smi_count : Nat
  threshold : Nat
  last_spike : Int
  frequency : Nat
  pending : Int
  deriving DecidableEq

/-- The static storage of `smdata` before `smi_detector_init`: all zero. -/
def smdata_zero : smdata_struct :=
  { last_sample := 0, max_sample := 0, smi_count := 0, threshold := 0,
    last_spike := 0, frequency := 0, pending := 0 }

/-- The clock readings one call of `smi_get_sample` consumes: the reading taken
for `start`, then the back-to-back pairs `(t1, t2)` of the loop, in order. -/
structure clock_window where
  start : Int
  pairs : List (Int × Int)
  deriving DecidableEq

/-! ## The sampling window -/

/-- The value `total` of one loop iteration: `ktime_to_us(ktime_sub(t2, start))`. -/
def window_total (start : Int) (p : Int × Int) : Int :=
  ktime_to_us (ktime_sub p.2 start)

/-- The value `diff` of one loop iteration: `ktime_to_us(ktime_sub(t2, t1))`. -/
def pair_diff (p : Int × Int) : Int :=
  ktime_to_us (ktime_sub p.2 p.1)

/-- The bound of the loop condition, `USEC_PER_MSEC*smi_sample_ms`. -/
def sample_limit (smi_sample_ms : Nat) : Int := USEC_PER_MSEC * (smi_sample_ms : Int)

/-- How the `do ... while` loop of `smi_get_sample` ends. -/
inductive loop_result where
  | backwards : loop_result
  | finished (sample : Nat) (spike : Option Int) : loop_result
  | still_running : loop_result
  deriving DecidableEq

/-- The `do ... while` loop of `smi_get_sample`.  The locals are `sample` and
`spike`; `spike` is `none` as long as the C variable has not been assigned. -/
def sample_loop (threshold : Nat) (limit : Int) (start : Int) :
    List (Int × Int) → Nat → Option Int → loop_result
  | [], _, _ => loop_result.still_running
  | (t1, t2) :: rest, sample, spike =>
    let total := ktime_to_us (ktime_sub t2 start)
    let diff := ktime_to_us (ktime_sub t2 t1)
    if diff < 0 then loop_result.backwards
    else
      let sample1 := if to_u64 diff > sample then to_u64 diff else sample
      let spike1 := if to_u64 diff > threshold then some t1 else spike
      if total ≤ limit then sample_loop threshold limit start rest sample1 spike1
      else loop_result.finished sample1 spike1

/-- The running maximum `sample` after the loop body has seen the pairs `l`. -/
def acc_sample (l : List (Int × Int)) (sample : Nat) : Nat :=
  l.foldl (fun a q => if to_u64 (pair_diff q) > a then to_u64 (pair_diff q) else a) sample

/-- The local `spike` after the loop body has seen the pairs `l`. -/
def acc_spike (thr : Nat) (l : List (Int × Int)) (spike : Option Int) : Option Int :=
  l.foldl (fun sp q => if to_u64 (pair_diff q) > thr then some q.1 else sp) spike

/-- What one call of `smi_get_sample` does. -/
inductive sample_result where
  | returned (code : Int) (s : smdata_struct) : sample_result
  | uninit_read : sample_result
  | still_running : sample_result
  deriving DecidableEq

/-- The statistics update of `smi_get_sample` after the loop (lines 104 to 126). -/
def update_stats (s : smdata_struct) (sample : Nat) (spike : Option Int) :
    sample_result :=
  let s1 := { s with last_sample := sample }
  let tail := fun (s4 : smdata_struct) =>
    let s5 := { s4 with pending := 1 }
    let s6 := if sample > s5.max_sample then { s5 with max_sample := sample } else s5
    sample_result.returned 0 s6
  if sample > s1.threshold then
    match spike with
    | none => sample_result.uninit_read
    | some spike =>
      let s2 := { s1 with smi_count := (s1.smi_count + 1) % 18446744073709551616 }
      let tmp := to_u64 (ktime_to_us (ktime_sub spike s2.last_spike))
      let s3 :=
        if s2.smi_count > 2 then
          { s2 with frequency := ((s2.frequency + tmp) % 18446744073709551616) / 2 }
        else if s2.smi_count = 2 then { s2 with frequency := tmp }
        else s2
      tail { s3 with last_spike := spike }
  else tail s1

/-- Function `smi_get_sample`: one sampling window over the statistics `s`, with
the window length `smi_sample_ms` and the clock readings `w`. -/
def smi_get_sample (smi_sample_ms : Nat) (s : smdata_struct) (w : clock_window) :
    sample_result :=
  match sample_loop s.threshold (sample_limit smi_sample_ms) w.start w.pairs 0 none with
  | loop_result.backwards => sample_result.returned 1 s
  | loop_result.still_running => sample_result.still_running
  | loop_result.finished sample spike => update_stats s sample spike

/-- The readings make the loop end: some pair is reported as running backwards
or brings `total` above the limit. -/
def window_ends (smi_sample_ms : Nat) (w : clock_window) : Bool :=
  w.pairs.any (fun p =>
    decide (pair_diff p < 0) || decide (sample_limit smi_sample_ms < window_total w.start p))

/-- A sequence of windows run one after the other on the same statistics; the
result lists, for each window, the value returned and the statistics after it.
It is `none` when a window does not return. -/
def run_windows (smi_sample_ms : Nat) :
    smdata_struct → List clock_window → Option (List (Int × smdata_struct))
  | _, [] => some []
  | s, w :: ws =>
    match smi_get_sample smi_sample_ms s w with
    | sample_result.returned code s1 =>
      (run_windows smi_sample_ms s1 ws).map (fun h => (code, s1) :: h)
    | _ => none

/-- The statistics after a history of windows that started from `s`. -/
def final_stats (s : smdata_struct) : List (Int × smdata_struct) → smdata_struct
  | [] => s
  | e :: hist => final_stats e.2 hist

/-- The entries of a history that are spike windows: completed, with
`last_sample` above the threshold. -/
def spike_windows (threshold : Nat) (hist : List (Int × smdata_struct)) :
    List (Int × smdata_struct) :=
  hist.filter (fun e => decide (e.1 = 0) && decide (threshold < e.2.last_sample))

/-- The entries of a history that are completed windows. -/
def completed_windows (hist : List (Int × smdata_struct)) : List (Int × smdata_struct) :=
  hist.filter (fun e => decide (e.1 = 0))

/-- The pairs the loop of a window reads: all pairs up to and including the
first one that ends the loop (a negative `diff`, or `total` above the limit). -/
def measured_pairs (limit : Int) (start : Int) :
    List (Int × Int) → List (Int × Int)
  | [] => []
  | p :: rest =>
    if pair_diff p < 0 then [p]
    else if window_total start p ≤ limit then p :: measured_pairs limit start rest
    else [p]

/-- Kernel `stop_machine(fn, data, cpus)`: runs `fn(data)` while every other CPU
is held, and returns what `fn` returned. -/
def stop_machine (fn : smdata_struct → clock_window → sample_result)
    (data : smdata_struct) (w : clock_window) : sample_result :=
  fn data w

/-- What the environment supplies to one iteration of the driver loop: the
answer of `kthread_should_stop()` at the loop test, the clock readings of the
window, and the value `msleep_interruptible` returns (the milliseconds left,
non-zero when the sleep was interrupted). -/
structure driver_step where
  should_stop : Bool
  window : clock_window
  sleep_left : Nat
  deriving DecidableEq

/-- How a run of `smi_kthread_fn` over a finite list of iterations ends.  The
list `errs` holds the values assigned to `err`, one for each window run. -/
inductive driver_result where
  | returned (code : Int) (errs : List Int) (s : smdata_struct) : driver_result
  | still_looping (errs : List Int) (s : smdata_struct) : driver_result
  | stuck : driver_result
  deriving DecidableEq

/-- Function `smi_kthread_fn`: the loop of the sampling thread. -/
def smi_kthread_fn (smi_sample_ms : Nat) :
    smdata_struct → List driver_step → List Int → driver_result
  | s, [], errs => driver_result.still_looping errs s
  | s, it :: rest, errs =>
    if it.should_stop then driver_result.returned 0 errs s
    else
      match stop_machine (smi_get_sample smi_sample_ms) s it.window with
      | sample_result.returned err s1 =>
        if it.sleep_left ≠ 0 then driver_result.returned 0 (errs ++ [err]) s1
        else smi_kthread_fn smi_sample_ms s1 rest (errs ++ [err])
      | _ => driver_result.stuck

/-! ## The blocking read of `sample_us` -/

/-- Kernel `wait_event_interruptible(wq, condition)`: `some 0` once the condition
holds, `some (-ERESTARTSYS)` when a signal interrupts the sleep, and `none`
while the caller stays asleep. -/
def wait_event_interruptible (condition : Bool) (signal : Bool) : Option Int :=
  if condition then some 0 else if signal then some (-512) else none

/-- The character of the hexadecimal digit `d` in lower case, as the `x`
conversion of the kernel `number()` produces it. -/
def hex_asc (d : Nat) : Char :=
  if d < 10 then Char.ofNat (48 + d) else Char.ofNat (87 + d)

/-- A lower-case hexadecimal digit: `0` to `9` or `a` to `f`. -/
def lower_hex_digit (c : Char) : Bool :=
  (decide ('0' ≤ c) && decide (c ≤ '9')) || (decide ('a' ≤ c) && decide (c ≤ 'f'))

/-- The digits the kernel `number()` produces for a hexadecimal conversion,
least significant first; there is always at least one digit. -/
def number_digits : Nat → Nat → List Char
  | 0, _ => []
  | fuel + 1, num =>
    hex_asc (num % 16) :: (if num / 16 = 0 then [] else number_digits fuel (num / 16))

/-- The text `sprintf(buf, "%08llx\n", v)` writes: the digits of `v`, padded
with zeros on the left to a width of at least 8, then a newline. -/
def sprintf_08llx (v : Nat) : List Char :=
  let digits := number_digits 16 (v % 18446744073709551616)
  List.replicate (8 - digits.length) '0' ++ digits.reverse ++ ['\n']

/-- Function `smi_debug_sample_fread`: `none` while the call stays blocked, else
the statistics after the call, the bytes copied to the user buffer and the
value returned.  The value of `wait_event_interruptible` is not looked at, and
`cnt` and `ppos` are not used, as in the source. -/
def smi_debug_sample_fread (s : smdata_struct) (signal : Bool) :
    Option (smdata_struct × List Char × Int) :=
  match wait_event_interruptible (decide (s.pending ≠ 0)) signal with
  | none => none
  | some _ =>
    let s1 := { s with pending := 0 }
    let buf := sprintf_08llx s1.last_sample
    let len : Int := buf.length
    some (s1, buf, len)

/-- The `k` low hexadecimal digits of `v`, least significant first. -/
def hex_lsd (k : Nat) (v : Nat) : List Char :=
  (List.range k).map (fun i => hex_asc (v / 16 ^ i % 16))

/-- The `k` low hexadecimal digits of `v`, most significant first: the text of a
zero-padded hexadecimal number of `k` digits. -/
def hex_text (k : Nat) (v : Nat) : List Char :=
  ((List.range k).map (fun i => hex_asc (v / 16 ^ i % 16))).reverse

/-! ## Initialisation -/

/-- Function `smi_detector_init`, as far as the statistics go: the module
parameters `enabled` and `threshold` are C `int`s. -/
def smi_detector_init (enabled threshold : Int) (smdata : smdata_struct) :
    Int × smdata_struct :=
  if enabled = 0 then (-1, smdata)
  else
    let s1 := { smdata with last_sample := 0, max_sample := 0, smi_count := 0, frequency := 0 }
    let s2 :=
      if threshold = 0 then { s1 with threshold := DEFAULT_SMI_THRESHOLD }
      else { s1 with threshold := to_u64 threshold }
    (0, { s2 with pending := 0 })

/-! # Theorems -/

/-! ## Arithmetic of the machine integers -/

/-- The conversion to microseconds is the floor of `kt / 1000`. -/
theorem ktime_to_us_eq (x : Int) : ktime_to_us x = x / 1000 := by
  unfold ktime_to_us ns_to_timeval NSEC_PER_SEC USEC_PER_SEC
  simp only
  omega

/-- The truncating division of C in terms of the floor. -/
theorem tdiv_thousand (x : Int) :
    Int.tdiv x 1000 = if 0 ≤ x then x / 1000 else -((-x) / 1000) := by
  split
  · rename_i h
    exact Int.tdiv_eq_ediv h (by norm_num)
  · rename_i h
    have h1 : 0 ≤ -x := by omega
    have h2 := Int.tdiv_eq_ediv h1 (show (0:Int) ≤ 1000 by norm_num)
    rw [← h2, Int.neg_tdiv, neg_neg]

theorem to_s64_of_range (x : Int) (h1 : -9223372036854775808 ≤ x)
    (h2 : x < 9223372036854775808) : to_s64 x = x := by
  unfold to_s64; omega

theorem to_s64_range (x : Int) :
    -9223372036854775808 ≤ to_s64 x ∧ to_s64 x < 9223372036854775808 := by
  unfold to_s64; omega

theorem ktime_sub_valid (a b : Int) (ha : valid_ktime a) (hb : valid_ktime b) :
    ktime_sub a b = a - b := by
  unfold valid_ktime at ha hb
  unfold ktime_sub
  apply to_s64_of_range <;> omega

theorem ktime_to_us_range (x : Int) (h1 : -9223372036854775808 ≤ x)
    (h2 : x < 9223372036854775808) :
    -9223372036854775808 < ktime_to_us x ∧ ktime_to_us x < 9223372036854775808 := by
  rw [ktime_to_us_eq]; omega

theorem pair_diff_range (p : Int × Int) :
    -9223372036854775808 < pair_diff p ∧ pair_diff p < 9223372036854775808 := by
  unfold pair_diff ktime_sub
  have := to_s64_range (p.2 - p.1)
  exact ktime_to_us_range _ this.1 this.2

theorem to_u64_of_nonneg (d : Int) (h0 : 0 ≤ d) (h1 : d < 18446744073709551616) :
    ((to_u64 d : Nat) : Int) = d := by
  unfold to_u64
  omega

/-- With valid readings and `t1 ≤ t2`, `diff` is the plain quotient `(t2 - t1) / 1000`. -/
theorem pair_diff_forward (p : Int × Int) (h1 : valid_ktime p.1) (h2 : valid_ktime p.2)
    (h : p.1 ≤ p.2) : pair_diff p = (p.2 - p.1) / 1000 ∧ 0 ≤ pair_diff p := by
  unfold pair_diff
  rw [ktime_sub_valid _ _ h2 h1, ktime_to_us_eq]
  unfold valid_ktime at h1 h2
  omega

/-- With valid readings, `diff` is negative exactly when `t2` is earlier than `t1`. -/
theorem pair_diff_neg_iff (p : Int × Int) (h1 : valid_ktime p.1) (h2 : valid_ktime p.2) :
    pair_diff p < 0 ↔ p.2 < p.1 := by
  unfold pair_diff
  rw [ktime_sub_valid _ _ h2 h1, ktime_to_us_eq]
  unfold valid_ktime at h1 h2
  omega

/-- The comparison `diff > threshold` of the code, for a non-negative `diff`. -/
theorem u64_diff_gt (p : Int × Int) (thr : Nat) (h : 0 ≤ pair_diff p) :
    to_u64 (pair_diff p) > thr ↔ (thr : Int) < pair_diff p := by
  have hr := pair_diff_range p
  have := to_u64_of_nonneg (pair_diff p) h (by omega)
  omega

/-! ## The loop of one window -/

theorem sample_loop_cons (thr : Nat) (limit start : Int) (p : Int × Int)
    (rest : List (Int × Int)) (sample : Nat) (spike : Option Int) :
    sample_loop thr limit start (p :: rest) sample spike =
      if pair_diff p < 0 then loop_result.backwards
      else if window_total start p ≤ limit then
        sample_loop thr limit start rest (acc_sample [p] sample) (acc_spike thr [p] spike)
      else loop_result.finished (acc_sample [p] sample) (acc_spike thr [p] spike) := by
  obtain ⟨t1, t2⟩ := p
  simp only [sample_loop, pair_diff, window_total, acc_sample, acc_spike, List.foldl]

theorem acc_sample_append (l1 l2 : List (Int × Int)) (sample : Nat) :
    acc_sample (l1 ++ l2) sample = acc_sample l2 (acc_sample l1 sample) := by
  simp [acc_sample, List.foldl_append]

theorem acc_spike_append (thr : Nat) (l1 l2 : List (Int × Int)) (spike : Option Int) :
    acc_spike thr (l1 ++ l2) spike = acc_spike thr l2 (acc_spike thr l1 spike) := by
  simp [acc_spike, List.foldl_append]

/-- The loop runs through every pair that neither runs backwards nor ends the window. -/
theorem sample_loop_append (thr : Nat) (limit start : Int) (pre rest : List (Int × Int))
    (hpre : ∀ q ∈ pre, 0 ≤ pair_diff q ∧ window_total start q ≤ limit)
    (sample : Nat) (spike : Option Int) :
    sample_loop thr limit start (pre ++ rest) sample spike =
      sample_loop thr limit start rest (acc_sample pre sample) (acc_spike thr pre spike) := by
  induction pre generalizing sample spike with
  | nil => simp [acc_sample, acc_spike]
  | cons p pre ih =>
    have hp := hpre p (List.mem_cons_self _ _)
    have hrest : ∀ q ∈ pre, 0 ≤ pair_diff q ∧ window_total start q ≤ limit :=
      fun q hq => hpre q (List.mem_cons_of_mem _ hq)
    rw [List.cons_append, sample_loop_cons, if_neg (by omega), if_pos hp.2, ih hrest]
    rw [show p :: pre = [p] ++ pre from rfl, acc_sample_append, acc_spike_append]

/-- A pair with a negative `diff`, reached while the window is still open, ends
the loop with the backwards result, whatever came before. -/
theorem sample_loop_backwards (thr : Nat) (limit start : Int) (pre : List (Int × Int))
    (p : Int × Int) (post : List (Int × Int))
    (hpre : ∀ q ∈ pre, window_total start q ≤ limit) (hp : pair_diff p < 0)
    (sample : Nat) (spike : Option Int) :
    sample_loop thr limit start (pre ++ p :: post) sample spike = loop_result.backwards := by
  induction pre generalizing sample spike with
  | nil => rw [List.nil_append, sample_loop_cons, if_pos hp]
  | cons q pre ih =>
    have hq := hpre q (List.mem_cons_self _ _)
    have hrest : ∀ r ∈ pre, window_total start r ≤ limit :=
      fun r hr => hpre r (List.mem_cons_of_mem _ hr)
    rw [List.cons_append, sample_loop_cons]
    by_cases hneg : pair_diff q < 0
    · rw [if_pos hneg]
    · rw [if_neg hneg, if_pos hq, ih hrest]

/-- The loop finishes at the first pair whose `total` is above the limit. -/
theorem sample_loop_finished (thr : Nat) (limit start : Int) (pre : List (Int × Int))
    (p : Int × Int) (post : List (Int × Int))
    (hpre : ∀ q ∈ pre, 0 ≤ pair_diff q ∧ window_total start q ≤ limit)
    (hp0 : 0 ≤ pair_diff p) (hp : limit < window_total start p)
    (sample : Nat) (spike : Option Int) :
    sample_loop thr limit start (pre ++ p :: post) sample spike =
      loop_result.finished (acc_sample (pre ++ [p]) sample) (acc_spike thr (pre ++ [p]) spike) := by
  rw [sample_loop_append thr limit start pre (p :: post) hpre, sample_loop_cons,
    if_neg (by omega), if_neg (by omega), acc_sample_append, acc_spike_append]

/-- While no pair ends the window the loop is still running. -/
theorem sample_loop_running (thr : Nat) (limit start : Int) (pre : List (Int × Int))
    (hpre : ∀ q ∈ pre, 0 ≤ pair_diff q ∧ window_total start q ≤ limit)
    (sample : Nat) (spike : Option Int) :
    sample_loop thr limit start pre sample spike = loop_result.still_running := by
  have := sample_loop_append thr limit start pre [] hpre sample spike
  rw [List.append_nil] at this
  rw [this]; rfl

/-- Every finished loop is of the shape of `sample_loop_finished`. -/
theorem sample_loop_finished_inv (thr : Nat) (limit start : Int) (pairs : List (Int × Int))
    (sample : Nat) (spike : Option Int) (sample1 : Nat) (spike1 : Option Int)
    (h : sample_loop thr limit start pairs sample spike = loop_result.finished sample1 spike1) :
    ∃ pre p post, pairs = pre ++ p :: post ∧
      (∀ q ∈ pre, 0 ≤ pair_diff q ∧ window_total start q ≤ limit) ∧
      0 ≤ pair_diff p ∧ limit < window_total start p ∧
      sample1 = acc_sample (pre ++ [p]) sample ∧ spike1 = acc_spike thr (pre ++ [p]) spike := by
  induction pairs generalizing sample spike with
  | nil => simp [sample_loop] at h
  | cons p rest ih =>
    rw [sample_loop_cons] at h
    by_cases hneg : pair_diff p < 0
    · rw [if_pos hneg] at h; cases h
    · rw [if_neg hneg] at h
      by_cases htot : window_total start p ≤ limit
      · rw [if_pos htot] at h
        obtain ⟨pre, q, post, hsplit, hpre, hq0, hq, hs, hsp⟩ := ih _ _ h
        refine ⟨p :: pre, q, post, by rw [hsplit]; rfl, ?_, hq0, hq, ?_, ?_⟩
        · intro r hr
          rcases List.mem_cons.1 hr with rfl | hr
          · exact ⟨by omega, htot⟩
          · exact hpre r hr
        · rw [hs]; simp [acc_sample]
        · rw [hsp]; simp [acc_spike]
      · rw [if_neg htot] at h
        injection h with h1 h2
        exact ⟨[], p, rest, rfl, by simp, by omega, by omega, h1.symm, h2.symm⟩


theorem acc_sample_snoc (l : List (Int × Int)) (x : Int × Int) (sample : Nat) :
    acc_sample (l ++ [x]) sample =
      if to_u64 (pair_diff x) > acc_sample l sample then to_u64 (pair_diff x)
      else acc_sample l sample := by
  simp [acc_sample, List.foldl_append]

theorem acc_spike_snoc (thr : Nat) (l : List (Int × Int)) (x : Int × Int) (spike : Option Int) :
    acc_spike thr (l ++ [x]) spike =
      if to_u64 (pair_diff x) > thr then some x.1 else acc_spike thr l spike := by
  simp [acc_spike, List.foldl_append]

/-- The local `sample` bounds its start value and the `diff` of every pair seen. -/
theorem acc_sample_bound (l : List (Int × Int)) (sample : Nat) :
    sample ≤ acc_sample l sample ∧ ∀ q ∈ l, to_u64 (pair_diff q) ≤ acc_sample l sample := by
  induction l using List.reverseRecOn with
  | nil => simp [acc_sample]
  | append_singleton l x ih =>
    rw [acc_sample_snoc]
    refine ⟨by split <;> omega, ?_⟩
    intro q hq
    rcases List.mem_append.1 hq with hq | hq
    · have := ih.2 q hq
      split <;> omega
    · rw [List.mem_singleton] at hq
      subst hq
      split <;> omega

/-- The local `sample` is its start value or the `diff` of a pair seen. -/
theorem acc_sample_attained (l : List (Int × Int)) (sample : Nat) :
    acc_sample l sample = sample ∨ ∃ q ∈ l, acc_sample l sample = to_u64 (pair_diff q) := by
  induction l using List.reverseRecOn with
  | nil => left; simp [acc_sample]
  | append_singleton l x ih =>
    rw [acc_sample_snoc]
    split
    · right; exact ⟨x, by simp, rfl⟩
    · rcases ih with h | ⟨q, hq, h⟩
      · left; exact h
      · right; exact ⟨q, List.mem_append_left _ hq, h⟩

/-- When no pair seen exceeds the threshold the local `spike` is untouched. -/
theorem acc_spike_none (thr : Nat) (l : List (Int × Int)) (spike : Option Int)
    (h : ∀ q ∈ l, ¬ to_u64 (pair_diff q) > thr) : acc_spike thr l spike = spike := by
  induction l using List.reverseRecOn with
  | nil => simp [acc_spike]
  | append_singleton l x ih =>
    rw [acc_spike_snoc, if_neg (h x (by simp))]
    exact ih (fun q hq => h q (List.mem_append_left _ hq))

/-- When some pair seen exceeds the threshold the local `spike` is `t1` of the last such pair. -/
theorem acc_spike_last (thr : Nat) (l : List (Int × Int)) (spike : Option Int)
    (h : ∃ q ∈ l, to_u64 (pair_diff q) > thr) :
    ∃ a q b, l = a ++ q :: b ∧ to_u64 (pair_diff q) > thr ∧
      (∀ r ∈ b, ¬ to_u64 (pair_diff r) > thr) ∧ acc_spike thr l spike = some q.1 := by
  induction l using List.reverseRecOn with
  | nil => simp at h
  | append_singleton l x ih =>
    rw [acc_spike_snoc]
    by_cases hx : to_u64 (pair_diff x) > thr
    · exact ⟨l, x, [], rfl, hx, by simp, by rw [if_pos hx]⟩
    · obtain ⟨q, hq, hgt⟩ := h
      have hq1 : q ∈ l := by
        rcases List.mem_append.1 hq with hq | hq
        · exact hq
        · rw [List.mem_singleton] at hq; subst hq; exact absurd hgt hx
      obtain ⟨a, q1, b, hl, hq1gt, hb, hsp⟩ := ih ⟨q, hq1, hgt⟩
      refine ⟨a, q1, b ++ [x], by rw [hl]; simp, hq1gt, ?_, by rw [if_neg hx]; exact hsp⟩
      intro r hr
      rcases List.mem_append.1 hr with hr | hr
      · exact hb r hr
      · rw [List.mem_singleton] at hr; subst hr; exact hx

/-! ## The statistics update -/

/-- The fields after the statistics update, when it returns. -/
theorem update_stats_fields (s : smdata_struct) (sample : Nat) (spike : Option Int)
    (code : Int) (s1 : smdata_struct)
    (h : update_stats s sample spike = sample_result.returned code s1) :
    code = 0 ∧ s1.last_sample = sample ∧ s1.threshold = s.threshold ∧ s1.pending = 1 ∧
    s1.max_sample = max s.max_sample sample ∧
    (s.threshold < sample →
      spike = some s1.last_spike ∧
      s1.smi_count = (s.smi_count + 1) % 18446744073709551616 ∧
      s1.frequency =
        (if s1.smi_count > 2 then
          ((s.frequency + to_u64 (ktime_to_us (ktime_sub s1.last_spike s.last_spike)))
            % 18446744073709551616) / 2
        else if s1.smi_count = 2 then
          to_u64 (ktime_to_us (ktime_sub s1.last_spike s.last_spike))
        else s.frequency)) ∧
    (¬ s.threshold < sample →
      s1.last_spike = s.last_spike ∧ s1.smi_count = s.smi_count ∧
      s1.frequency = s.frequency) := by
  by_cases hmax : s.max_sample < sample <;> by_cases hthr : s.threshold < sample
  all_goals cases spike
  all_goals by_cases h2 : 2 < (s.smi_count + 1) % 18446744073709551616
  all_goals by_cases h3 : (s.smi_count + 1) % 18446744073709551616 = 2
  all_goals simp only [update_stats, hmax, hthr, h2, h3, gt_iff_lt, if_true, if_false,
    sample_result.returned.injEq, reduceCtorEq] at h
  all_goals obtain ⟨hc, rfl⟩ := h
  all_goals simp [hmax, hthr, h2, h3, hc.symm]
  all_goals omega

/-- The update returns as soon as the local `spike` is assigned whenever it is read. -/
theorem update_stats_returns (s : smdata_struct) (sample : Nat) (spike : Option Int)
    (h : s.threshold < sample → ∃ sp, spike = some sp) :
    ∃ s1, update_stats s sample spike = sample_result.returned 0 s1 := by
  by_cases hthr : s.threshold < sample
  · obtain ⟨sp, rfl⟩ := h hthr
    simp only [update_stats, hthr, gt_iff_lt, if_true]
    exact ⟨_, rfl⟩
  · simp only [update_stats, hthr, gt_iff_lt, if_false]
    exact ⟨_, rfl⟩

theorem update_stats_ne_running (s : smdata_struct) (sample : Nat) (spike : Option Int) :
    update_stats s sample spike ≠ sample_result.still_running := by
  by_cases hthr : s.threshold < sample <;> cases spike <;>
    simp [update_stats, hthr]

/-- When the largest `diff` of the measured pairs exceeds the threshold, some
measured pair exceeded it, and the local `spike` holds `t1` of the last one. -/
theorem spike_assigned (thr : Nat) (m : List (Int × Int)) (hm : ∀ q ∈ m, 0 ≤ pair_diff q)
    (h : thr < acc_sample m 0) :
    ∃ a q b, m = a ++ q :: b ∧ (thr : Int) < pair_diff q ∧
      (∀ r ∈ b, pair_diff r ≤ (thr : Int)) ∧ acc_spike thr m none = some q.1 := by
  have hex : ∃ q ∈ m, to_u64 (pair_diff q) > thr := by
    rcases acc_sample_attained m 0 with h0 | ⟨q, hq, hq1⟩
    · omega
    · exact ⟨q, hq, by omega⟩
  obtain ⟨a, q, b, hsplit, hq, hb, hsp⟩ := acc_spike_last thr m none hex
  have hqm : q ∈ m := by rw [hsplit]; simp
  refine ⟨a, q, b, hsplit, (u64_diff_gt q thr (hm q hqm)).1 hq, ?_, hsp⟩
  intro r hr
  have hrm : r ∈ m := by rw [hsplit]; simp [hr]
  have := hb r hr
  have h2 := u64_diff_gt r thr (hm r hrm)
  by_contra hcon
  exact this (h2.2 (by omega))

theorem measured_all_nonneg (limit start : Int) (pre : List (Int × Int)) (p : Int × Int)
    (hpre : ∀ q ∈ pre, 0 ≤ pair_diff q ∧ window_total start q ≤ limit)
    (hp0 : 0 ≤ pair_diff p) : ∀ q ∈ pre ++ [p], 0 ≤ pair_diff q := by
  intro q hq
  rcases List.mem_append.1 hq with hq | hq
  · exact (hpre q hq).1
  · rw [List.mem_singleton] at hq; subst hq; exact hp0

/-- The measured pairs of a window that completes at `p`. -/
theorem measured_pairs_split (limit start : Int) (pre : List (Int × Int)) (p : Int × Int)
    (post : List (Int × Int))
    (hpre : ∀ q ∈ pre, 0 ≤ pair_diff q ∧ window_total start q ≤ limit)
    (hp0 : 0 ≤ pair_diff p) (hp : limit < window_total start p) :
    measured_pairs limit start (pre ++ p :: post) = pre ++ [p] := by
  induction pre with
  | nil =>
    simp only [List.nil_append, measured_pairs]
    rw [if_neg (by omega), if_neg (by omega)]
  | cons q pre ih =>
    have hq := hpre q (List.mem_cons_self _ _)
    have ih1 := ih (fun r hr => hpre r (List.mem_cons_of_mem _ hr))
    simp only [List.cons_append, measured_pairs]
    rw [if_neg (by omega), if_pos hq.2]
    exact congrArg (fun l => q :: l) ih1

/-- A window that returns 0 finished its loop, and its statistics are the update
for the measured pairs. -/
theorem smi_get_sample_completed (ms : Nat) (s : smdata_struct) (w : clock_window)
    (s1 : smdata_struct) (h : smi_get_sample ms s w = sample_result.returned 0 s1) :
    ∃ pre p post, w.pairs = pre ++ p :: post ∧
      (∀ q ∈ pre, 0 ≤ pair_diff q ∧ window_total w.start q ≤ sample_limit ms) ∧
      0 ≤ pair_diff p ∧ sample_limit ms < window_total w.start p ∧
      update_stats s (acc_sample (pre ++ [p]) 0) (acc_spike s.threshold (pre ++ [p]) none) =
        sample_result.returned 0 s1 := by
  unfold smi_get_sample at h
  split at h
  · injection h with hc _; omega
  · cases h
  · rename_i sample spike hloop
    obtain ⟨pre, p, post, hsplit, hpre, hp0, hp, hs, hsp⟩ :=
      sample_loop_finished_inv _ _ _ _ _ _ _ _ hloop
    exact ⟨pre, p, post, hsplit, hpre, hp0, hp, by rw [← hs, ← hsp]; exact h⟩

/-- A window that returns a non-zero value left the statistics as they were. -/
theorem smi_get_sample_aborted (ms : Nat) (s : smdata_struct) (w : clock_window)
    (code : Int) (s1 : smdata_struct)
    (h : smi_get_sample ms s w = sample_result.returned code s1) (hc : code ≠ 0) :
    code = 1 ∧ s1 = s := by
  unfold smi_get_sample at h
  split at h
  · injection h with h1 h2; exact ⟨h1.symm, h2.symm⟩
  · cases h
  · have := (update_stats_fields _ _ _ _ _ h).1
    exact absurd this hc

/-- The window never reads the local `spike` before it is assigned. -/
theorem smi_get_sample_ne_uninit (ms : Nat) (s : smdata_struct) (w : clock_window) :
    smi_get_sample ms s w ≠ sample_result.uninit_read := by
  unfold smi_get_sample
  split
  · simp
  · simp
  · rename_i sample spike hloop
    obtain ⟨pre, p, post, hsplit, hpre, hp0, hp, hs, hsp⟩ :=
      sample_loop_finished_inv _ _ _ _ _ _ _ _ hloop
    have hret := update_stats_returns s sample spike (by
      intro hthr
      rw [hs] at hthr
      obtain ⟨a, q, b, _, _, _, hq⟩ := spike_assigned s.threshold (pre ++ [p])
        (measured_all_nonneg _ _ pre p hpre hp0) hthr
      exact ⟨q.1, by rw [hsp, hq]⟩)
    obtain ⟨s1, hs1⟩ := hret
    rw [hs1]; simp

/-- A window whose readings make the loop end returns. -/
theorem sample_loop_ends (thr : Nat) (limit start : Int) (pairs : List (Int × Int))
    (h : pairs.any (fun p => decide (pair_diff p < 0) || decide (limit < window_total start p))
      = true)
    (sample : Nat) (spike : Option Int) :
    sample_loop thr limit start pairs sample spike ≠ loop_result.still_running := by
  induction pairs generalizing sample spike with
  | nil => simp at h
  | cons p rest ih =>
    rw [sample_loop_cons]
    by_cases hneg : pair_diff p < 0
    · rw [if_pos hneg]; simp
    · rw [if_neg hneg]
      by_cases htot : window_total start p ≤ limit
      · rw [if_pos htot]
        apply ih
        simp only [List.any_cons, Bool.or_eq_true, decide_eq_true_eq] at h
        rcases h with (h | h) | h
        · exact absurd h hneg
        · omega
        · exact h
      · rw [if_neg htot]; simp

theorem smi_get_sample_returns (ms : Nat) (s : smdata_struct) (w : clock_window)
    (h : window_ends ms w = true) :
    ∃ code s1, smi_get_sample ms s w = sample_result.returned code s1 := by
  have h1 := smi_get_sample_ne_uninit ms s w
  have h2 : smi_get_sample ms s w ≠ sample_result.still_running := by
    unfold smi_get_sample
    split
    · simp
    · rename_i hloop
      exact absurd hloop (sample_loop_ends _ _ _ _ h _ _)
    · exact update_stats_ne_running _ _ _
  cases hres : smi_get_sample ms s w with
  | returned code s1 => exact ⟨code, s1, rfl⟩
  | uninit_read => exact absurd hres h1
  | still_running => exact absurd hres h2


theorem window_total_valid (start : Int) (q : Int × Int) (hs : valid_ktime start)
    (hq : valid_ktime q.2) : window_total start q = (q.2 - start) / 1000 := by
  unfold window_total
  rw [ktime_sub_valid _ _ hq hs, ktime_to_us_eq]

theorem smi_get_sample_of_finished (ms : Nat) (s : smdata_struct) (start : Int)
    (pre : List (Int × Int)) (p : Int × Int) (post : List (Int × Int))
    (hpre : ∀ q ∈ pre, 0 ≤ pair_diff q ∧ window_total start q ≤ sample_limit ms)
    (hp0 : 0 ≤ pair_diff p) (hp : sample_limit ms < window_total start p) :
    smi_get_sample ms s { start := start, pairs := pre ++ p :: post } =
      update_stats s (acc_sample (pre ++ [p]) 0) (acc_spike s.threshold (pre ++ [p]) none) := by
  unfold smi_get_sample
  simp only
  rw [sample_loop_finished s.threshold _ start pre p post hpre hp0 hp]

theorem smi_get_sample_of_running (ms : Nat) (s : smdata_struct) (start : Int)
    (pre : List (Int × Int))
    (hpre : ∀ q ∈ pre, 0 ≤ pair_diff q ∧ window_total start q ≤ sample_limit ms) :
    smi_get_sample ms s { start := start, pairs := pre } = sample_result.still_running := by
  unfold smi_get_sample
  simp only
  rw [sample_loop_running s.threshold _ start pre hpre]

theorem smi_get_sample_of_finished_returns (ms : Nat) (s : smdata_struct) (start : Int)
    (pre : List (Int × Int)) (p : Int × Int)
    (hpre : ∀ q ∈ pre, 0 ≤ pair_diff q ∧ window_total start q ≤ sample_limit ms)
    (hp0 : 0 ≤ pair_diff p) :
    ∃ s1, update_stats s (acc_sample (pre ++ [p]) 0)
      (acc_spike s.threshold (pre ++ [p]) none) = sample_result.returned 0 s1 := by
  apply update_stats_returns
  intro hthr
  obtain ⟨a, q, b, _, _, _, hq⟩ := spike_assigned s.threshold (pre ++ [p])
    (measured_all_nonneg _ _ pre p hpre hp0) hthr
  exact ⟨q.1, hq⟩

/-! ## The claims about one window -/

/-- C8. A window over readings with no backward pair (valid readings, `t1 ≤ t2`
in every pair) whose first pair with `total` above `1000 * smi_sample_ms` is `p`,
after the pairs `pre`: the call returns 0; it reads exactly the pairs
`pre ++ [p]` (the later readings `post` do not matter, and on any part of `pre`
alone, the empty one included, the loop is still running, so at least one pair
is measured and the loop does not stop earlier); and `last_sample` is the
largest `(t2 - t1) / 1000` of the pairs read: it is the value of one of them
and no pair read has a larger one. -/
theorem smi_get_sample_measures_window (ms : Nat) (s : smdata_struct) (start : Int)
    (pre : List (Int × Int)) (p : Int × Int) (post : List (Int × Int))
    (hstart : valid_ktime start)
    (hfwd : ∀ q ∈ pre ++ p :: post, valid_ktime q.1 ∧ valid_ktime q.2 ∧ q.1 ≤ q.2)
    (hpre : ∀ q ∈ pre, Int.tdiv (q.2 - start) 1000 ≤ 1000 * (ms : Int))
    (hp : 1000 * (ms : Int) < Int.tdiv (p.2 - start) 1000) :
    ∃ s1, smi_get_sample ms s { start := start, pairs := pre ++ p :: post } =
        sample_result.returned 0 s1 ∧
      smi_get_sample ms s { start := start, pairs := pre ++ [p] } =
        sample_result.returned 0 s1 ∧
      (∀ n, n ≤ pre.length →
        smi_get_sample ms s { start := start, pairs := pre.take n } =
          sample_result.still_running) ∧
      measured_pairs (sample_limit ms) start (pre ++ p :: post) = pre ++ [p] ∧
      (∃ q ∈ pre ++ [p], (s1.last_sample : Int) = (q.2 - q.1) / 1000) ∧
      (∀ q ∈ pre ++ [p], (q.2 - q.1) / 1000 ≤ (s1.last_sample : Int)) := by
  have hmem : ∀ q ∈ pre ++ [p], q ∈ pre ++ p :: post := by
    intro q hq
    rcases List.mem_append.1 hq with hq | hq
    · exact List.mem_append_left _ hq
    · rw [List.mem_singleton] at hq; subst hq; simp
  have hdiff : ∀ q ∈ pre ++ [p], pair_diff q = (q.2 - q.1) / 1000 ∧ 0 ≤ pair_diff q := by
    intro q hq
    obtain ⟨h1, h2, h3⟩ := hfwd q (hmem q hq)
    exact pair_diff_forward q h1 h2 h3
  have hpre1 : ∀ q ∈ pre, 0 ≤ pair_diff q ∧ window_total start q ≤ sample_limit ms := by
    intro q hq
    refine ⟨(hdiff q (List.mem_append_left _ hq)).2, ?_⟩
    rw [window_total_valid start q hstart (hfwd q (List.mem_append_left _ hq)).2.1]
    have h := hpre q hq
    rw [tdiv_thousand] at h
    unfold sample_limit USEC_PER_MSEC
    split at h <;> omega
  have hp0 : 0 ≤ pair_diff p := (hdiff p (by simp)).2
  have hp1 : sample_limit ms < window_total start p := by
    rw [window_total_valid start p hstart (hfwd p (by simp)).2.1]
    have h := hp
    rw [tdiv_thousand] at h
    unfold sample_limit USEC_PER_MSEC
    split at h <;> omega
  obtain ⟨s1, hs1⟩ := smi_get_sample_of_finished_returns ms s start pre p hpre1 hp0
  have hlast := (update_stats_fields _ _ _ _ _ hs1).2.1
  have hu : ∀ q ∈ pre ++ [p], ((to_u64 (pair_diff q) : Nat) : Int) = (q.2 - q.1) / 1000 := by
    intro q hq
    have hr := pair_diff_range q
    rw [to_u64_of_nonneg _ (hdiff q hq).2 (by omega)]
    exact (hdiff q hq).1
  refine ⟨s1, ?_, ?_, ?_, measured_pairs_split _ start pre p post hpre1 hp0 hp1, ?_, ?_⟩
  · rw [smi_get_sample_of_finished ms s start pre p post hpre1 hp0 hp1]; exact hs1
  · rw [smi_get_sample_of_finished ms s start pre p [] hpre1 hp0 hp1]; exact hs1
  · intro n _
    exact smi_get_sample_of_running ms s start (pre.take n)
      (fun q hq => hpre1 q (List.mem_of_mem_take hq))
  · rcases acc_sample_attained (pre ++ [p]) 0 with h0 | ⟨q, hq, hq1⟩
    · refine ⟨p, by simp, ?_⟩
      have hb := (acc_sample_bound (pre ++ [p]) 0).2 p (by simp)
      have := hu p (by simp)
      rw [hlast, h0]
      omega
    · exact ⟨q, hq, by rw [hlast, hq1]; exact hu q hq⟩
  · intro q hq
    have hb := (acc_sample_bound (pre ++ [p]) 0).2 q hq
    have := hu q hq
    rw [hlast]
    omega

/-- C8, at a concrete window: three pairs, the third one ends a 1 ms window. -/
theorem smi_get_sample_measures_window_witness :
    ∃ s1, smi_get_sample 1 smdata_zero
        { start := 0, pairs := [(100, 6000), (7000, 9000)] ++ (2000500, 2003000) :: [(5, 6)] } =
        sample_result.returned 0 s1 ∧
      smi_get_sample 1 smdata_zero
        { start := 0, pairs := [(100, 6000), (7000, 9000)] ++ [(2000500, 2003000)] } =
        sample_result.returned 0 s1 ∧
      (∀ n, n ≤ [((100 : Int), (6000 : Int)), (7000, 9000)].length →
        smi_get_sample 1 smdata_zero
          { start := 0, pairs := [((100 : Int), (6000 : Int)), (7000, 9000)].take n } =
          sample_result.still_running) ∧
      measured_pairs (sample_limit 1) 0
        ([(100, 6000), (7000, 9000)] ++ (2000500, 2003000) :: [(5, 6)]) =
        [(100, 6000), (7000, 9000)] ++ [(2000500, 2003000)] ∧
      (∃ q ∈ [((100 : Int), (6000 : Int)), (7000, 9000)] ++ [(2000500, 2003000)],
        (s1.last_sample : Int) = (q.2 - q.1) / 1000) ∧
      (∀ q ∈ [((100 : Int), (6000 : Int)), (7000, 9000)] ++ [(2000500, 2003000)],
        (q.2 - q.1) / 1000 ≤ (s1.last_sample : Int)) :=
  smi_get_sample_measures_window 1 smdata_zero 0 [(100, 6000), (7000, 9000)]
    (2000500, 2003000) [(5, 6)] (by decide) (by decide) (by decide) (by decide)


/-- C4. For every prior statistics `s` and every window in which a pair `p`,
read while the window is still open (every earlier pair has `total` within the
limit), goes backward (`t2` earlier than `t1`, valid readings), the call returns
the non-zero value 1 and the statistics are exactly `s`: `last_sample`,
`max_sample`, `smi_count`, `frequency`, `last_spike` and the pending flag are
what they were before the window. -/
theorem smi_get_sample_backwards_frame (ms : Nat) (s : smdata_struct) (start : Int)
    (pre : List (Int × Int)) (p : Int × Int) (post : List (Int × Int))
    (hpre : ∀ q ∈ pre, window_total start q ≤ sample_limit ms)
    (h1 : valid_ktime p.1) (h2 : valid_ktime p.2) (hback : p.2 < p.1) :
    smi_get_sample ms s { start := start, pairs := pre ++ p :: post } =
      sample_result.returned 1 s := by
  have hneg : pair_diff p < 0 := (pair_diff_neg_iff p h1 h2).2 hback
  unfold smi_get_sample
  simp only
  rw [sample_loop_backwards s.threshold _ start pre p post hpre hneg]

/-- C4, at a concrete window: the second pair steps back by 500 ns; the call
returns 1 and every field of the statistics stays as it was. -/
theorem smi_get_sample_backwards_frame_witness :
    smi_get_sample 1
      { last_sample := 7, max_sample := 9, smi_count := 3, threshold := 1,
        last_spike := 100, frequency := 4, pending := 0 }
      { start := 0, pairs := [(100, 6000)] ++ (9000, 8500) :: [(2000500, 2003000)] } =
    sample_result.returned 1
      { last_sample := 7, max_sample := 9, smi_count := 3, threshold := 1,
        last_spike := 100, frequency := 4, pending := 0 } :=
  smi_get_sample_backwards_frame 1 _ 0 [(100, 6000)] (9000, 8500) [(2000500, 2003000)]
    (by decide) (by decide) (by decide) (by decide)

/-- C9. The call never reads the local `spike` unassigned.  When it completes
with `last_sample` above the threshold, some measured pair had `diff` above the
threshold and `last_spike` is `t1` of the last such measured pair; in every
other case (sample not above the threshold, or window abandoned) `last_spike`
is unchanged. -/
theorem smi_get_sample_last_spike (ms : Nat) (s : smdata_struct) (w : clock_window) :
    smi_get_sample ms s w ≠ sample_result.uninit_read ∧
    ∀ code s1, smi_get_sample ms s w = sample_result.returned code s1 →
      ((code = 0 ∧ s.threshold < s1.last_sample) →
        ∃ a q b, measured_pairs (sample_limit ms) w.start w.pairs = a ++ q :: b ∧
          (s.threshold : Int) < pair_diff q ∧
          (∀ r ∈ b, pair_diff r ≤ (s.threshold : Int)) ∧
          s1.last_spike = q.1) ∧
      (¬ (code = 0 ∧ s.threshold < s1.last_sample) → s1.last_spike = s.last_spike) := by
  refine ⟨smi_get_sample_ne_uninit ms s w, ?_⟩
  intro code s1 h
  by_cases hc : code = 0
  · subst hc
    obtain ⟨pre, p, post, hsplit, hpre, hp0, hp, hup⟩ := smi_get_sample_completed ms s w s1 h
    obtain ⟨_, hls, _, _, _, hspike, hno⟩ := update_stats_fields _ _ _ _ _ hup
    constructor
    · rintro ⟨_, hthr⟩
      rw [hls] at hthr
      obtain ⟨a, q, b, hm, hq, hb, hsp⟩ := spike_assigned s.threshold (pre ++ [p])
        (measured_all_nonneg _ _ pre p hpre hp0) hthr
      refine ⟨a, q, b, ?_, hq, hb, ?_⟩
      · rw [hsplit, measured_pairs_split _ _ pre p post hpre hp0 hp, hm]
      · have := (hspike hthr).1
        rw [hsp] at this
        injection this with this
        exact this.symm
    · intro hn
      have : ¬ s.threshold < acc_sample (pre ++ [p]) 0 := by
        intro hcon
        exact hn ⟨rfl, by rw [hls]; exact hcon⟩
      exact (hno this).1
  · constructor
    · rintro ⟨h0, _⟩; exact absurd h0 hc
    · intro _
      rw [(smi_get_sample_aborted ms s w code s1 h hc).2]

/-- C9, at a concrete window: two measured pairs exceed the threshold 1, the
later one starts at 2000500, and that is the value of `last_spike`. -/
theorem smi_get_sample_last_spike_witness :
    smi_get_sample 1 { smdata_zero with threshold := 1 }
        { start := 0, pairs := [(100, 6000), (7000, 7100), (2000500, 2003000), (5, 6)] } =
      sample_result.returned 0
        { last_sample := 5, max_sample := 5, smi_count := 1, threshold := 1,
          last_spike := 2000500, frequency := 0, pending := 1 } ∧
    smi_get_sample 1 { smdata_zero with threshold := 1 }
        { start := 0, pairs := [(100, 6000), (7000, 7100), (2000500, 2003000), (5, 6)] } ≠
      sample_result.uninit_read :=
  ⟨by decide,
    (smi_get_sample_last_spike 1 { smdata_zero with threshold := 1 }
      { start := 0, pairs := [(100, 6000), (7000, 7100), (2000500, 2003000), (5, 6)] }).1⟩


/-! ## Sequences of windows -/

/-- What one returning window does to the statistics. -/
theorem smi_get_sample_step (ms : Nat) (s : smdata_struct) (w : clock_window)
    (code : Int) (s1 : smdata_struct)
    (h : smi_get_sample ms s w = sample_result.returned code s1) :
    (code = 1 ∧ s1 = s) ∨
    (code = 0 ∧ s1.threshold = s.threshold ∧
      s1.max_sample = max s.max_sample s1.last_sample ∧
      (s.threshold < s1.last_sample →
        s1.smi_count = (s.smi_count + 1) % 18446744073709551616 ∧
        s1.frequency =
          (if s1.smi_count > 2 then
            ((s.frequency + to_u64 (ktime_to_us (ktime_sub s1.last_spike s.last_spike)))
              % 18446744073709551616) / 2
          else if s1.smi_count = 2 then
            to_u64 (ktime_to_us (ktime_sub s1.last_spike s.last_spike))
          else s.frequency)) ∧
      (¬ s.threshold < s1.last_sample →
        s1.last_spike = s.last_spike ∧ s1.smi_count = s.smi_count ∧
        s1.frequency = s.frequency)) := by
  by_cases hc : code = 0
  · subst hc
    obtain ⟨pre, p, post, _, _, _, _, hup⟩ := smi_get_sample_completed ms s w s1 h
    obtain ⟨_, hls, hthr, _, hmax, hsp, hno⟩ := update_stats_fields _ _ _ _ _ hup
    right
    refine ⟨rfl, hthr, by rw [hmax, hls], ?_, ?_⟩
    · intro hh
      rw [hls] at hh
      exact (hsp hh).2
    · intro hh
      rw [hls] at hh
      exact hno hh
  · left
    exact smi_get_sample_aborted ms s w code s1 h hc

theorem run_windows_cons (ms : Nat) (s : smdata_struct) (w : clock_window)
    (ws : List clock_window) (hist : List (Int × smdata_struct))
    (h : run_windows ms s (w :: ws) = some hist) :
    ∃ code s1 rest, smi_get_sample ms s w = sample_result.returned code s1 ∧
      run_windows ms s1 ws = some rest ∧ hist = (code, s1) :: rest := by
  unfold run_windows at h
  split at h
  · rename_i code s1 hw
    cases hr : run_windows ms s1 ws with
    | none => rw [hr] at h; simp at h
    | some rest =>
      rw [hr] at h
      simp only [Option.map_some', Option.some.injEq] at h
      exact ⟨code, s1, rest, hw, hr, h.symm⟩
  · cases h

/-- A sequence of windows that all end returns a history. -/
theorem run_windows_returns (ms : Nat) (ws : List clock_window)
    (hend : ∀ w ∈ ws, window_ends ms w = true) (s : smdata_struct) :
    ∃ hist, run_windows ms s ws = some hist := by
  induction ws generalizing s with
  | nil => exact ⟨[], rfl⟩
  | cons w ws ih =>
    obtain ⟨code, s1, hw⟩ := smi_get_sample_returns ms s w (hend w (List.mem_cons_self _ _))
    obtain ⟨rest, hrest⟩ := ih (fun v hv => hend v (List.mem_cons_of_mem _ hv)) s1
    refine ⟨(code, s1) :: rest, ?_⟩
    unfold run_windows
    rw [hw]
    simp only
    rw [hrest]
    rfl

theorem spike_windows_cons (thr : Nat) (e : Int × smdata_struct)
    (hist : List (Int × smdata_struct)) :
    spike_windows thr (e :: hist) =
      if e.1 = 0 ∧ thr < e.2.last_sample then e :: spike_windows thr hist
      else spike_windows thr hist := by
  unfold spike_windows
  by_cases h : e.1 = 0 ∧ thr < e.2.last_sample
  · rw [if_pos h, List.filter_cons_of_pos (by simpa using h)]
  · rw [if_neg h, List.filter_cons_of_neg (by simpa using h)]

theorem completed_windows_cons (e : Int × smdata_struct) (hist : List (Int × smdata_struct)) :
    completed_windows (e :: hist) =
      if e.1 = 0 then e :: completed_windows hist else completed_windows hist := by
  unfold completed_windows
  by_cases h : e.1 = 0
  · rw [if_pos h, List.filter_cons_of_pos (by simpa using h)]
  · rw [if_neg h, List.filter_cons_of_neg (by simpa using h)]

/-- The counter after a history, from any start with room below `2^64`. -/
theorem run_windows_count (ms : Nat) (ws : List clock_window) (s : smdata_struct)
    (hist : List (Int × smdata_struct)) (h : run_windows ms s ws = some hist)
    (hroom : s.smi_count + ws.length < 18446744073709551616) :
    hist.length = ws.length ∧
    (final_stats s hist).smi_count = s.smi_count + (spike_windows s.threshold hist).length ∧
    ∀ c, List.Chain (fun a b => b.2.smi_count = a.2.smi_count +
      (if b.1 = 0 ∧ s.threshold < b.2.last_sample then 1 else 0)) (c, s) hist := by
  induction ws generalizing s hist with
  | nil =>
    simp only [run_windows, Option.some.injEq] at h
    subst h
    simp [final_stats, spike_windows]
  | cons w ws ih =>
    obtain ⟨code, s1, rest, hw, hrest, rfl⟩ := run_windows_cons ms s w ws hist h
    have hstep := smi_get_sample_step ms s w code s1 hw
    have hthr : s1.threshold = s.threshold := by
      rcases hstep with ⟨_, h1⟩ | ⟨_, h1, _⟩
      · rw [h1]
      · exact h1
    have hcnt : s1.smi_count = s.smi_count +
        (if code = 0 ∧ s.threshold < s1.last_sample then 1 else 0) := by
      rcases hstep with ⟨h0, h1⟩ | ⟨h0, _, _, hsp, hno⟩
      · rw [if_neg (by omega), h1]; rfl
      · by_cases hh : s.threshold < s1.last_sample
        · rw [if_pos ⟨h0, hh⟩, (hsp hh).1]
          simp only [List.length_cons] at hroom
          omega
        · rw [if_neg (fun hcon => hh hcon.2), (hno hh).2.1]; rfl
    simp only [List.length_cons] at hroom
    have hroom1 : s1.smi_count + ws.length < 18446744073709551616 := by
      rw [hcnt]; split <;> omega
    obtain ⟨hl, hfin, hchain⟩ := ih s1 rest hrest hroom1
    rw [hthr] at hfin hchain
    refine ⟨by simp [hl], ?_, ?_⟩
    · rw [show final_stats s ((code, s1) :: rest) = final_stats s1 rest from rfl, hfin,
        spike_windows_cons, hcnt]
      by_cases hh : code = 0 ∧ s.threshold < s1.last_sample
      · rw [if_pos hh, if_pos hh, List.length_cons]; omega
      · rw [if_neg hh, if_neg hh]; omega
    · intro c
      exact List.Chain.cons hcnt (hchain code)


/-- C1. From statistics with `smi_count = 0`, for every threshold and every
sequence of fewer than `2^64` windows that end: the run returns one history
entry per window, the final `smi_count` is the number of completed windows
whose `last_sample` was strictly above the threshold, and every window adds
exactly 1 to the counter when it completed with `last_sample > threshold` and
exactly 0 otherwise (so a sample equal to the threshold is not counted). -/
theorem smi_count_counts_spike_windows (ms : Nat) (s0 : smdata_struct)
    (ws : List clock_window) (h0 : s0.smi_count = 0)
    (hlen : ws.length < 18446744073709551616)
    (hend : ∀ w ∈ ws, window_ends ms w = true) :
    ∃ hist, run_windows ms s0 ws = some hist ∧ hist.length = ws.length ∧
      (final_stats s0 hist).smi_count = (spike_windows s0.threshold hist).length ∧
      List.Chain (fun a b => b.2.smi_count = a.2.smi_count +
        (if b.1 = 0 ∧ s0.threshold < b.2.last_sample then 1 else 0)) (0, s0) hist := by
  obtain ⟨hist, hrun⟩ := run_windows_returns ms ws hend s0
  obtain ⟨hl, hfin, hchain⟩ := run_windows_count ms ws s0 hist hrun (by omega)
  exact ⟨hist, hrun, hl, by rw [hfin, h0]; omega, hchain 0⟩

/-- C1, at a concrete run with threshold 5: a window whose sample is exactly 5,
a window with sample 8, an abandoned window and a window with sample 1000 leave
`smi_count = 2`. -/
theorem smi_count_counts_spike_windows_witness :
    (∃ hist, run_windows 1 { smdata_zero with threshold := 5 }
        [{ start := 0, pairs := [(100, 5100), (2000500, 2003000)] },
         { start := 3000000, pairs := [(3001000, 3009000), (5000500, 5003000)] },
         { start := 6000000, pairs := [(6005000, 6001000)] },
         { start := 8000000, pairs := [(8001000, 9001000)] }] = some hist ∧
      hist.length = 4 ∧
      (final_stats { smdata_zero with threshold := 5 } hist).smi_count =
        (spike_windows 5 hist).length ∧
      List.Chain (fun a b => b.2.smi_count = a.2.smi_count +
        (if b.1 = 0 ∧ 5 < b.2.last_sample then 1 else 0))
        (0, { smdata_zero with threshold := 5 }) hist) ∧
    (run_windows 1 { smdata_zero with threshold := 5 }
        [{ start := 0, pairs := [(100, 5100), (2000500, 2003000)] },
         { start := 3000000, pairs := [(3001000, 3009000), (5000500, 5003000)] },
         { start := 6000000, pairs := [(6005000, 6001000)] },
         { start := 8000000, pairs := [(8001000, 9001000)] }]).map
      (fun hist => (hist.map (fun e => (e.1, e.2.last_sample, e.2.smi_count)))) =
      some [(0, 5, 0), (0, 8, 1), (1, 8, 1), (0, 1000, 2)] :=
  ⟨smi_count_counts_spike_windows 1 { smdata_zero with threshold := 5 } _ (by decide)
    (by decide) (by decide), by decide⟩

/-- The running maximum after a history, from any start. -/
theorem run_windows_max (ms : Nat) (ws : List clock_window) (s : smdata_struct)
    (hist : List (Int × smdata_struct)) (h : run_windows ms s ws = some hist) :
    (final_stats s hist).max_sample =
      max s.max_sample
        (((completed_windows hist).map (fun e => e.2.last_sample)).foldr max 0) ∧
    ∀ c, List.Chain (fun a b => a.2.max_sample ≤ b.2.max_sample) (c, s) hist := by
  induction ws generalizing s hist with
  | nil =>
    simp only [run_windows, Option.some.injEq] at h
    subst h
    simp [final_stats, completed_windows]
  | cons w ws ih =>
    obtain ⟨code, s1, rest, hw, hrest, rfl⟩ := run_windows_cons ms s w ws hist h
    have hstep := smi_get_sample_step ms s w code s1 hw
    obtain ⟨hfin, hchain⟩ := ih s1 rest hrest
    rw [show final_stats s ((code, s1) :: rest) = final_stats s1 rest from rfl, hfin,
      completed_windows_cons]
    rcases hstep with ⟨h0, h1⟩ | ⟨h0, _, hmax, _, _⟩
    · subst h1
      refine ⟨?_, fun c => List.Chain.cons (le_refl _) (hchain code)⟩
      rw [if_neg (by simp [h0])]
    · refine ⟨?_, fun c => List.Chain.cons (by simp only; rw [hmax]; exact le_max_left _ _)
        (hchain code)⟩
      rw [if_pos h0, hmax]
      simp only [List.map_cons, List.foldr_cons]
      rw [max_assoc]

theorem le_foldr_max (l : List Nat) (x : Nat) (hx : x ∈ l) : x ≤ l.foldr max 0 := by
  induction l with
  | nil => simp at hx
  | cons y l ih =>
    simp only [List.foldr_cons]
    rcases List.mem_cons.1 hx with rfl | hx
    · exact le_max_left _ _
    · exact le_trans (ih hx) (le_max_right _ _)

/-- C2. From statistics with `max_sample = 0`, for every sequence of windows that
end: the final `max_sample` is the maximum of the `last_sample` values of the
windows that were not abandoned (0 when there is none); along the run
`max_sample` never decreases, and the final value is at least every
`last_sample` a completed window produced. -/
theorem max_sample_is_running_maximum (ms : Nat) (s0 : smdata_struct)
    (ws : List clock_window) (h0 : s0.max_sample = 0)
    (hend : ∀ w ∈ ws, window_ends ms w = true) :
    ∃ hist, run_windows ms s0 ws = some hist ∧
      (final_stats s0 hist).max_sample =
        ((completed_windows hist).map (fun e => e.2.last_sample)).foldr max 0 ∧
      List.Chain (fun a b => a.2.max_sample ≤ b.2.max_sample) (0, s0) hist ∧
      ∀ e ∈ completed_windows hist, e.2.last_sample ≤ (final_stats s0 hist).max_sample := by
  obtain ⟨hist, hrun⟩ := run_windows_returns ms ws hend s0
  obtain ⟨hfin, hchain⟩ := run_windows_max ms ws s0 hist hrun
  rw [h0, Nat.zero_max] at hfin
  refine ⟨hist, hrun, hfin, hchain 0, ?_⟩
  intro e he
  rw [hfin]
  exact le_foldr_max _ _ (List.mem_map_of_mem (fun e => e.2.last_sample) he)

/-- C2, at a concrete run: samples 5, 8, an abandoned window, then 3; the final
`max_sample` is 8. -/
theorem max_sample_is_running_maximum_witness :
    (∃ hist, run_windows 1 { smdata_zero with threshold := 5 }
        [{ start := 0, pairs := [(100, 5100), (2000500, 2003000)] },
         { start := 3000000, pairs := [(3001000, 3009000), (5000500, 5003000)] },
         { start := 6000000, pairs := [(6005000, 6001000)] },
         { start := 8000000, pairs := [(8001000, 8004000), (9001000, 9002000)] }] = some hist ∧
      (final_stats { smdata_zero with threshold := 5 } hist).max_sample =
        ((completed_windows hist).map (fun e => e.2.last_sample)).foldr max 0 ∧
      List.Chain (fun a b => a.2.max_sample ≤ b.2.max_sample)
        (0, { smdata_zero with threshold := 5 }) hist ∧
      ∀ e ∈ completed_windows hist,
        e.2.last_sample ≤ (final_stats { smdata_zero with threshold := 5 } hist).max_sample) ∧
    (run_windows 1 { smdata_zero with threshold := 5 }
        [{ start := 0, pairs := [(100, 5100), (2000500, 2003000)] },
         { start := 3000000, pairs := [(3001000, 3009000), (5000500, 5003000)] },
         { start := 6000000, pairs := [(6005000, 6001000)] },
         { start := 8000000, pairs := [(8001000, 8004000), (9001000, 9002000)] }]).map
      (fun hist => (hist.map (fun e => (e.1, e.2.last_sample, e.2.max_sample)))) =
      some [(0, 5, 5), (0, 8, 8), (1, 8, 8), (0, 3, 8)] :=
  ⟨max_sample_is_running_maximum 1 { smdata_zero with threshold := 5 } _ (by decide)
    (by decide), by decide⟩


theorem final_stats_snoc (s : smdata_struct) (hist : List (Int × smdata_struct))
    (e : Int × smdata_struct) : final_stats s (hist ++ [e]) = e.2 := by
  induction hist generalizing s with
  | nil => rfl
  | cons x hist ih => exact ih x.2

theorem run_windows_snoc (ms : Nat) (ws : List clock_window) (w : clock_window)
    (s : smdata_struct) (hist : List (Int × smdata_struct)) (code : Int) (s1 : smdata_struct)
    (h : run_windows ms s ws = some hist)
    (hw : smi_get_sample ms (final_stats s hist) w = sample_result.returned code s1) :
    run_windows ms s (ws ++ [w]) = some (hist ++ [(code, s1)]) := by
  induction ws generalizing s hist with
  | nil =>
    simp only [run_windows, Option.some.injEq] at h
    subst h
    simp only [List.nil_append, run_windows]
    rw [show final_stats s [] = s from rfl] at hw
    rw [hw]
    rfl
  | cons v ws ih =>
    obtain ⟨c, s2, rest, hv, hrest, rfl⟩ := run_windows_cons ms s v ws hist h
    have := ih s2 rest hrest hw
    simp only [List.cons_append, run_windows]
    rw [hv]
    exact congrArg (Option.map (fun h => (c, s2) :: h)) this

/-- While no stop is requested and every sleep runs to its end, the driver runs
the window of each iteration in turn, whatever the windows return. -/
theorem smi_kthread_fn_steps (ms : Nat) (pre : List driver_step)
    (hpre : ∀ j ∈ pre, j.should_stop = false ∧ j.sleep_left = 0)
    (hend : ∀ j ∈ pre, window_ends ms j.window = true) (s : smdata_struct) :
    ∃ hist, run_windows ms s (pre.map (fun j => j.window)) = some hist ∧
      ∀ rest errs, smi_kthread_fn ms s (pre ++ rest) errs =
        smi_kthread_fn ms (final_stats s hist) rest (errs ++ hist.map Prod.fst) := by
  induction pre generalizing s with
  | nil => exact ⟨[], rfl, fun rest errs => by simp [final_stats]⟩
  | cons j pre ih =>
    obtain ⟨hstop, hsleep⟩ := hpre j (List.mem_cons_self _ _)
    obtain ⟨code, s1, hw⟩ := smi_get_sample_returns ms s j.window
      (hend j (List.mem_cons_self _ _))
    obtain ⟨hist, hrun, hk⟩ := ih (fun i hi => hpre i (List.mem_cons_of_mem _ hi))
      (fun i hi => hend i (List.mem_cons_of_mem _ hi)) s1
    refine ⟨(code, s1) :: hist, ?_, ?_⟩
    · simp only [List.map_cons, run_windows]
      rw [hw]
      simp only
      rw [hrun]
      rfl
    · intro rest errs
      simp only [List.cons_append, smi_kthread_fn, stop_machine, hstop, hsleep]
      rw [hw]
      simp only [Bool.false_eq_true, if_false, ne_eq, not_true_eq_false]
      have := hk rest (errs ++ [code])
      simpa [final_stats] using this

/-- C10. Let `pre` be iterations in which no stop is requested and every sleep
runs to its end (and whose windows end).  Then, whatever the windows return
(0 or 1): the driver runs the window of every iteration of `pre`, one after the
other, and is still looping afterwards; when the next iteration finds a stop
requested it returns without running another window; when the next iteration
runs its window and its sleep is interrupted it returns right after that
sleep, without another window.  The values assigned to `err` are only
recorded, never tested. -/
theorem smi_kthread_fn_ignores_sample_result (ms : Nat) (s : smdata_struct)
    (pre : List driver_step)
    (hpre : ∀ j ∈ pre, j.should_stop = false ∧ j.sleep_left = 0)
    (hend : ∀ j ∈ pre, window_ends ms j.window = true) :
    (∃ hist, run_windows ms s (pre.map (fun j => j.window)) = some hist ∧
      smi_kthread_fn ms s pre [] =
        driver_result.still_looping (hist.map Prod.fst) (final_stats s hist)) ∧
    (∀ it post, it.should_stop = true →
      ∃ hist, run_windows ms s (pre.map (fun j => j.window)) = some hist ∧
        smi_kthread_fn ms s (pre ++ it :: post) [] =
          driver_result.returned 0 (hist.map Prod.fst) (final_stats s hist)) ∧
    (∀ it post, it.should_stop = false → it.sleep_left ≠ 0 →
      window_ends ms it.window = true →
      ∃ hist, run_windows ms s (pre.map (fun j => j.window) ++ [it.window]) = some hist ∧
        smi_kthread_fn ms s (pre ++ it :: post) [] =
          driver_result.returned 0 (hist.map Prod.fst) (final_stats s hist)) := by
  obtain ⟨hist, hrun, hk⟩ := smi_kthread_fn_steps ms pre hpre hend s
  refine ⟨⟨hist, hrun, ?_⟩, ?_, ?_⟩
  · have := hk [] []
    rw [List.append_nil] at this
    rw [this]
    simp [smi_kthread_fn]
  · intro it post hstop
    refine ⟨hist, hrun, ?_⟩
    rw [hk (it :: post) []]
    simp [smi_kthread_fn, hstop]
  · intro it post hstop hsleep hwend
    obtain ⟨code, s1, hw⟩ := smi_get_sample_returns ms (final_stats s hist) it.window hwend
    refine ⟨hist ++ [(code, s1)], run_windows_snoc ms _ _ s hist code s1 hrun hw, ?_⟩
    rw [hk (it :: post) []]
    simp only [smi_kthread_fn, stop_machine, hstop]
    rw [hw]
    simp [hsleep, final_stats_snoc]

/-- C10, at a concrete run: the second window is abandoned (returns 1), the
driver still sleeps and runs the third; the fourth iteration finds the stop
request and no further window is run. -/
theorem smi_kthread_fn_ignores_sample_result_witness :
    smi_kthread_fn 1 { smdata_zero with threshold := 1 }
      ([⟨false, ⟨0, [(100, 6000), (2000500, 2003000)]⟩, 0⟩,
        ⟨false, ⟨9000000, [(9005000, 9001000)]⟩, 0⟩,
        ⟨false, ⟨10000000, [(11001000, 11007000)]⟩, 0⟩] ++
        ⟨true, ⟨13000000, [(14001000, 14007000)]⟩, 0⟩ ::
        [⟨false, ⟨15000000, [(16001000, 16007000)]⟩, 0⟩]) [] =
      driver_result.returned 0 [0, 1, 0]
        { last_sample := 6, max_sample := 6, smi_count := 2, threshold := 1,
          last_spike := 11001000, frequency := 9000, pending := 1 } := by
  obtain ⟨hist, hrun, hk⟩ := (smi_kthread_fn_ignores_sample_result 1
    { smdata_zero with threshold := 1 }
    [⟨false, ⟨0, [(100, 6000), (2000500, 2003000)]⟩, 0⟩,
     ⟨false, ⟨9000000, [(9005000, 9001000)]⟩, 0⟩,
     ⟨false, ⟨10000000, [(11001000, 11007000)]⟩, 0⟩] (by decide) (by decide)).2.1
    ⟨true, ⟨13000000, [(14001000, 14007000)]⟩, 0⟩
    [⟨false, ⟨15000000, [(16001000, 16007000)]⟩, 0⟩] rfl
  rw [hk]
  have hval : run_windows 1 { smdata_zero with threshold := 1 }
      [⟨0, [(100, 6000), (2000500, 2003000)]⟩, ⟨9000000, [(9005000, 9001000)]⟩,
       ⟨10000000, [(11001000, 11007000)]⟩] =
      some [(0, { last_sample := 5, max_sample := 5, smi_count := 1, threshold := 1,
                  last_spike := 2000500, frequency := 0, pending := 1 }),
            (1, { last_sample := 5, max_sample := 5, smi_count := 1, threshold := 1,
                  last_spike := 2000500, frequency := 0, pending := 1 }),
            (0, { last_sample := 6, max_sample := 6, smi_count := 2, threshold := 1,
                  last_spike := 11001000, frequency := 9000, pending := 1 })] := by
    decide
  have hh : hist = _ := Option.some.inj (hrun.symm.trans hval)
  subst hh
  rfl


/-! ## The read of `sample_us` -/

theorem hex_lsd_succ (k v : Nat) :
    hex_lsd (k + 1) v = hex_asc (v % 16) :: hex_lsd k (v / 16) := by
  unfold hex_lsd
  rw [List.range_succ_eq_map, List.map_cons, List.map_map]
  simp only [pow_zero, Nat.div_one]
  congr 1
  apply List.map_congr_left
  intro i _
  simp only [Function.comp, Nat.succ_eq_add_one]
  rw [Nat.div_div_eq_div_mul, pow_succ, Nat.mul_comm]

theorem hex_lsd_zero (k : Nat) : hex_lsd k 0 = List.replicate k '0' := by
  induction k with
  | zero => rfl
  | succ k ih =>
    rw [hex_lsd_succ, List.replicate_succ]
    simp only [Nat.zero_mod, Nat.zero_div]
    rw [ih]
    rfl

/-- The digits of `number()`, padded with zeros, are the low digits of the value. -/
theorem number_digits_pad (k : Nat) (fuel v : Nat) (hv : v < 16 ^ (k + 1))
    (hf : k + 1 ≤ fuel) :
    (number_digits fuel v).length ≤ k + 1 ∧
    number_digits fuel v ++ List.replicate (k + 1 - (number_digits fuel v).length) '0' =
      hex_lsd (k + 1) v := by
  induction k generalizing fuel v with
  | zero =>
    obtain ⟨f, rfl⟩ : ∃ f, fuel = f + 1 := ⟨fuel - 1, by omega⟩
    have h0 : v / 16 = 0 := by omega
    simp [number_digits, h0, hex_lsd, List.range_succ]
  | succ k ih =>
    obtain ⟨f, rfl⟩ : ∃ f, fuel = f + 1 := ⟨fuel - 1, by omega⟩
    rw [hex_lsd_succ]
    by_cases h0 : v / 16 = 0
    · simp only [number_digits, h0, if_true, List.length_singleton]
      rw [hex_lsd_zero]
      exact ⟨by omega, by simp⟩
    · have hv1 : v / 16 < 16 ^ (k + 1) := by
        rw [Nat.div_lt_iff_lt_mul (by norm_num)]
        rw [pow_succ] at hv
        exact hv
      obtain ⟨hl, hp⟩ := ih f (v / 16) hv1 (by omega)
      simp only [number_digits, h0, if_false, List.length_cons, List.cons_append]
      refine ⟨by omega, ?_⟩
      rw [show k + 1 + 1 - ((number_digits f (v / 16)).length + 1) =
        k + 1 - (number_digits f (v / 16)).length by omega, hp]

/-- A value of at least `16^k` has more than `k` digits. -/
theorem number_digits_length (k : Nat) (fuel v : Nat) (hv : 16 ^ k ≤ v) (hf : k + 1 ≤ fuel) :
    k + 1 ≤ (number_digits fuel v).length := by
  induction k generalizing fuel v with
  | zero =>
    obtain ⟨f, rfl⟩ : ∃ f, fuel = f + 1 := ⟨fuel - 1, by omega⟩
    simp [number_digits]
  | succ k ih =>
    obtain ⟨f, rfl⟩ : ∃ f, fuel = f + 1 := ⟨fuel - 1, by omega⟩
    have hv1 : 16 ^ k ≤ v / 16 := by
      rw [Nat.le_div_iff_mul_le (by norm_num)]
      rw [pow_succ] at hv
      exact hv
    have h0 : v / 16 ≠ 0 := by
      have : 0 < 16 ^ k := Nat.pow_pos (by norm_num)
      omega
    have := ih f (v / 16) hv1 (by omega)
    simp only [number_digits, h0, if_false, List.length_cons]
    omega

/-- The text of `sprintf` for a value with at most `k` digits, `8 ≤ k ≤ 16`, and
exactly `k` digits when `k` is more than 8. -/
theorem sprintf_08llx_eq (k v : Nat) (hk8 : 8 ≤ k) (hk16 : k ≤ 16) (hv : v < 16 ^ k)
    (hlow : k = 8 ∨ 16 ^ (k - 1) ≤ v) :
    sprintf_08llx v = hex_text k v ++ ['\n'] := by
  have hv64 : v < 18446744073709551616 :=
    lt_of_lt_of_le hv (by
      calc 16 ^ k ≤ 16 ^ 16 := Nat.pow_le_pow_right (by norm_num) hk16
        _ = 18446744073709551616 := by norm_num)
  obtain ⟨j, rfl⟩ : ∃ j, k = j + 1 := ⟨k - 1, by omega⟩
  obtain ⟨hl, hp⟩ := number_digits_pad j 16 v hv (by omega)
  unfold sprintf_08llx hex_text
  simp only [Nat.mod_eq_of_lt hv64]
  rw [show (List.range (j + 1)).map (fun i => hex_asc (v / 16 ^ i % 16)) = hex_lsd (j + 1) v
    from rfl, ← hp, List.reverse_append, List.reverse_replicate]
  have hlen : 8 - (number_digits 16 v).length = j + 1 - (number_digits 16 v).length := by
    rcases hlow with h8 | hge
    · omega
    · have := number_digits_length j 16 v (by simpa using hge) (by omega)
      omega
  rw [hlen]

theorem hex_asc_lower (d : Nat) : lower_hex_digit (hex_asc (d % 16)) = true := by
  have h : d % 16 < 16 := Nat.mod_lt _ (by norm_num)
  generalize d % 16 = m at h
  interval_cases m <;> decide

theorem hex_text_lower (k v : Nat) : ∀ c ∈ hex_text k v, lower_hex_digit c = true := by
  intro c hc
  unfold hex_text at hc
  rw [List.mem_reverse, List.mem_map] at hc
  obtain ⟨i, _, rfl⟩ := hc
  exact hex_asc_lower _

theorem hex_text_length (k v : Nat) : (hex_text k v).length = k := by
  simp [hex_text]


theorem smi_debug_sample_fread_pending (s : smdata_struct) (signal : Bool)
    (hp : s.pending ≠ 0) :
    smi_debug_sample_fread s signal =
      some ({ s with pending := 0 }, sprintf_08llx s.last_sample,
        ((sprintf_08llx s.last_sample).length : Int)) := by
  simp [smi_debug_sample_fread, wait_event_interruptible, hp]

/-- Without a pending sample and without a signal the read stays blocked. -/
theorem smi_debug_sample_fread_blocks (s : smdata_struct) (hp : s.pending = 0) :
    smi_debug_sample_fread s false = none := by
  simp [smi_debug_sample_fread, wait_event_interruptible, hp]

/-- A read that returns leaves the pending flag cleared. -/
theorem smi_debug_sample_fread_clears (s : smdata_struct) (signal : Bool)
    (r : smdata_struct × List Char × Int) (h : smi_debug_sample_fread s signal = some r) :
    r.1.pending = 0 := by
  unfold smi_debug_sample_fread at h
  split at h
  · cases h
  · injection h with h
    rw [← h]

/-- Without signals the read consumes once: after a read that returned, a second
read with no window in between stays blocked. -/
theorem smi_debug_sample_fread_second_blocks (s : smdata_struct) (signal : Bool)
    (r : smdata_struct × List Char × Int) (h : smi_debug_sample_fread s signal = some r) :
    smi_debug_sample_fread r.1 false = none :=
  smi_debug_sample_fread_blocks r.1 (smi_debug_sample_fread_clears s signal r h)

/-- A completed window sets the pending flag, so that the next read returns. -/
theorem smi_get_sample_publishes (ms : Nat) (s : smdata_struct) (w : clock_window)
    (s1 : smdata_struct) (h : smi_get_sample ms s w = sample_result.returned 0 s1) :
    s1.pending = 1 := by
  obtain ⟨pre, p, post, _, _, _, _, hup⟩ := smi_get_sample_completed ms s w s1 h
  exact (update_stats_fields _ _ _ _ _ hup).2.2.2.1

/-- C6, as stated, fails: for `last_sample = 2^32` the text has nine digits and
the returned length is 10. -/
theorem smi_debug_sample_fread_nine_digits :
    smi_debug_sample_fread { smdata_zero with last_sample := 4294967296, pending := 1 } false =
      some ({ smdata_zero with last_sample := 4294967296, pending := 0 },
        ['1', '0', '0', '0', '0', '0', '0', '0', '0', '\n'], 10) := by
  decide

/-- C6, amended. A read of `sample_us` with a sample pending returns, clears the
flag, and for `last_sample < 2^32` the text is exactly the eight lower-case
hexadecimal digits of `last_sample`, zero padded, most significant first,
followed by a newline, and the value returned is 9; for a larger `last_sample`
(up to the `u64` range) the text carries all `k` digits of the value,
`9 ≤ k ≤ 16`, followed by a newline, and the value returned is `k + 1`. -/
theorem smi_debug_sample_fread_text (s : smdata_struct) (signal : Bool)
    (hp : s.pending ≠ 0) (hu : s.last_sample < 18446744073709551616) :
    (s.last_sample < 4294967296 →
      smi_debug_sample_fread s signal =
        some ({ s with pending := 0 }, hex_text 8 s.last_sample ++ ['\n'], 9)) ∧
    (4294967296 ≤ s.last_sample →
      ∃ k, 9 ≤ k ∧ k ≤ 16 ∧ 16 ^ (k - 1) ≤ s.last_sample ∧ s.last_sample < 16 ^ k ∧
        smi_debug_sample_fread s signal =
          some ({ s with pending := 0 }, hex_text k s.last_sample ++ ['\n'], (k : Int) + 1)) ∧
    (∀ k, (hex_text k s.last_sample).length = k ∧
      ∀ c ∈ hex_text k s.last_sample, lower_hex_digit c = true) := by
  refine ⟨?_, ?_, fun k => ⟨hex_text_length k _, hex_text_lower k _⟩⟩
  · intro h32
    rw [smi_debug_sample_fread_pending s signal hp,
      sprintf_08llx_eq 8 s.last_sample (le_refl _) (by norm_num) (by norm_num; exact h32)
        (Or.inl rfl)]
    simp [hex_text_length]
  · intro h32
    have hne : s.last_sample ≠ 0 := by omega
    have h1 : 8 ≤ Nat.log 16 s.last_sample :=
      Nat.le_log_of_pow_le (by norm_num) (by norm_num; exact h32)
    have h2 : Nat.log 16 s.last_sample < 16 :=
      Nat.log_lt_of_lt_pow hne (by norm_num; exact hu)
    have h3 := Nat.pow_log_le_self 16 hne
    have h4 := Nat.lt_pow_succ_log_self (show 1 < 16 by norm_num) s.last_sample
    refine ⟨Nat.log 16 s.last_sample + 1, by omega, by omega, by simpa using h3, h4, ?_⟩
    rw [smi_debug_sample_fread_pending s signal hp,
      sprintf_08llx_eq (Nat.log 16 s.last_sample + 1) s.last_sample (by omega) (by omega) h4
        (Or.inr (by simpa using h3))]
    simp [hex_text_length]

/-- C6, amended, at concrete values: `0xbeef` reads as `0000beef`, and `2^64 - 1`
as sixteen `f`. -/
theorem smi_debug_sample_fread_text_witness :
    smi_debug_sample_fread { smdata_zero with last_sample := 48879, pending := 1 } false =
      some ({ smdata_zero with last_sample := 48879, pending := 0 },
        ['0', '0', '0', '0', 'b', 'e', 'e', 'f', '\n'], 9) :=
  (smi_debug_sample_fread_text { smdata_zero with last_sample := 48879, pending := 1 } false
    (by decide) (by decide)).1 (by decide)

/-- C5, the failing input: a window published the sample 5 and the first read
consumed it (the flag is cleared); a second read with no window in between,
whose sleep is interrupted by a signal, still returns, and returns the same text
again instead of staying blocked. -/
theorem smi_debug_sample_fread_signal_delivers_stale :
    smi_debug_sample_fread { smdata_zero with last_sample := 5, pending := 1 } false =
      some ({ smdata_zero with last_sample := 5, pending := 0 },
        ['0', '0', '0', '0', '0', '0', '0', '5', '\n'], 9) ∧
    smi_debug_sample_fread { smdata_zero with last_sample := 5, pending := 0 } false = none ∧
    smi_debug_sample_fread { smdata_zero with last_sample := 5, pending := 0 } true =
      some ({ smdata_zero with last_sample := 5, pending := 0 },
        ['0', '0', '0', '0', '0', '0', '0', '5', '\n'], 9) := by
  decide

/-! ## Initialisation -/

/-- C7, as stated, fails: with the parameter `threshold = -1` the 64-bit field is
`2^64 - 1`, not the configured value. -/
theorem smi_detector_init_negative_threshold :
    smi_detector_init 1 (-1) smdata_zero =
      (0, { smdata_zero with threshold := 18446744073709551615 }) ∧
    (((smi_detector_init 1 (-1) smdata_zero).2.threshold : Nat) : Int) ≠ -1 := by
  decide

/-- C7, amended. For every non-negative value of the `int` parameter `threshold`,
a successful `smi_detector_init` (`enabled` non-zero) returns 0 and leaves
`last_sample`, `max_sample`, `smi_count` and `frequency` zero, the pending flag
cleared, and the field `threshold` equal to 1 when the parameter is zero
(unset) and to the parameter otherwise. -/
theorem smi_detector_init_threshold (enabled threshold : Int) (smdata : smdata_struct)
    (hen : enabled ≠ 0) (h0 : 0 ≤ threshold) (hint : threshold ≤ 2147483647) :
    (smi_detector_init enabled threshold smdata).1 = 0 ∧
    (smi_detector_init enabled threshold smdata).2.last_sample = 0 ∧
    (smi_detector_init enabled threshold smdata).2.max_sample = 0 ∧
    (smi_detector_init enabled threshold smdata).2.smi_count = 0 ∧
    (smi_detector_init enabled threshold smdata).2.frequency = 0 ∧
    (smi_detector_init enabled threshold smdata).2.pending = 0 ∧
    (((smi_detector_init enabled threshold smdata).2.threshold : Nat) : Int) =
      (if threshold = 0 then 1 else threshold) := by
  unfold smi_detector_init
  rw [if_neg hen]
  by_cases ht : threshold = 0
  · simp [ht, DEFAULT_SMI_THRESHOLD]
  · simp only [ht, if_false, true_and]
    exact to_u64_of_nonneg threshold h0 (by omega)

/-- C7, amended, at concrete parameters: unset gives 1, 250 gives 250. -/
theorem smi_detector_init_threshold_witness :
    (smi_detector_init 1 0 smdata_zero).2.threshold = 1 ∧
    (((smi_detector_init 1 250 smdata_zero).2.threshold : Nat) : Int) = 250 :=
  ⟨by decide,
    (smi_detector_init_threshold 1 250 smdata_zero (by decide) (by decide) (by decide)).2.2.2.2.2.2⟩

end SmiDetector
